import Mathlib

/-!
Verification of the zapdos-js upload-pipeline core against its specification.

The embedding follows the TypeScript sources:
- `src/utils.ts` : `parseNDJSONStream`, `extractCustomParams`, `axiosUpload`,
  `prepareMinimalCallbacks`, `batchUpload`, `parseSignedUrl`,
  `updateObjectMetadata`, `handleStream`
- `src/types.ts` : `unextendCallbacks` and the callback-tree types
- `src/base-client.ts` : `ZapdosBaseClient.uploadWithSignedUrls`

Strings manipulated character by character are modelled as `List Char`;
raw bytes as `List Nat`.  Platform primitives (JSON.parse, the WHATWG URL
parser/serializer) are abstract parameters, so every theorem quantifies
over their behaviour.  The TextDecoder is modelled concretely as an
incremental UTF-8 decoder.
-/

namespace Zapdos

/-! ## NDJSON stream decoder (`parseNDJSONStream`, src/utils.ts lines 35-62)

`buffer.split("\n")` followed by `buffer = lines.pop()` is modelled by
`splitNL`, which returns the complete lines and the trailing fragment. -/

/-- Model of `buffer.split("\n")` with the final fragment separated out:
`splitNL s = (complete lines, trailing fragment after the last newline)`. -/
def splitNL : List Char → List (List Char) × List Char
  | [] => ([], [])
  | c :: cs =>
    let r := splitNL cs
    if c = '\n' then ([] :: r.1, r.2)
    else
      match r.1 with
      | [] => ([], c :: r.2)
      | l :: ls => ((c :: l) :: ls, r.2)

/-- `line.trim()` is truthy iff the line holds a non-whitespace character. -/
def hasContent (line : List Char) : Bool :=
  line.any (fun c => !c.isWhitespace)

/-- One complete line of the stream: skipped when `line.trim()` is falsy,
otherwise `JSON.parse` is attempted and a parse failure is swallowed
(`try { yield JSON.parse(line) } catch { console.warn(...) }`). -/
def emitLine {R : Type} (parse : List Char → Option R) (line : List Char) :
    List R :=
  if hasContent line then (parse line).toList else []

/-- The chunk loop of `parseNDJSONStream` over already-decoded text chunks:
append the chunk to the buffer, split on newline, hold back the final
fragment, emit every complete line; at end of stream attempt one final
tolerant parse of the residual buffer. -/
def processChunks {R : Type} (parse : List Char → Option R) :
    List Char → List (List Char) → List R
  | buffer, [] => emitLine parse buffer
  | buffer, chunk :: rest =>
    let r := splitNL (buffer ++ chunk)
    r.1.flatMap (emitLine parse) ++ processChunks parse r.2 rest

/-- `parseNDJSONStream` on a stream of already-decoded text chunks. -/
def parseNDJSONStream {R : Type} (parse : List Char → Option R)
    (chunks : List (List Char)) : List R :=
  processChunks parse [] chunks

/-- Prepending the first fragment of a later split onto the head line. -/
def mergeFirst (frag : List Char) : List (List Char) → List (List Char)
  | [] => []
  | l :: ls => (frag ++ l) :: ls

/-! ## Incremental UTF-8 decoding (the `TextDecoder` with `stream: true`)

`parseNDJSONStream` reads raw byte chunks and decodes them with a stateful
`TextDecoder`, which holds back a trailing incomplete multi-byte sequence
until the next chunk arrives.  Bytes are `Nat`s below `256`. -/

/-- Length of the UTF-8 sequence announced by a leading byte. -/
def utf8Len (b : Nat) : Nat :=
  if b < 0x80 then 1
  else if b < 0xC0 then 1
  else if b < 0xE0 then 2
  else if b < 0xF0 then 3
  else 4

/-- Assemble the code point of one complete UTF-8 sequence. -/
def decodeBytes : List Nat → Char
  | [b] => Char.ofNat b
  | [b1, b2] => Char.ofNat ((b1 - 0xC0) * 64 + (b2 - 0x80))
  | [b1, b2, b3] =>
    Char.ofNat ((b1 - 0xE0) * 4096 + (b2 - 0x80) * 64 + (b3 - 0x80))
  | [b1, b2, b3, b4] =>
    Char.ofNat ((b1 - 0xF0) * 262144 + (b2 - 0x80) * 4096 +
      (b3 - 0x80) * 64 + (b4 - 0x80))
  | _ => Char.ofNat 0

/-- The stateful decoder: `decodeSM pend bytes` carries `pend`, the bytes
of a not-yet-complete UTF-8 sequence, collects bytes until the sequence
length announced by its leading byte is reached, emits the decoded
character, and returns the final carried state. -/
def decodeSM : List Nat → List Nat → List Char × List Nat
  | pend, [] => ([], pend)
  | pend, b :: rest =>
    if (pend ++ [b]).length < utf8Len ((pend ++ [b]).headD 0) then
      decodeSM (pend ++ [b]) rest
    else
      (decodeBytes (pend ++ [b]) :: (decodeSM [] rest).1, (decodeSM [] rest).2)

/-- UTF-8 encoding of one character. -/
def utf8EncodeChar (c : Char) : List Nat :=
  let n := c.toNat
  if n < 0x80 then [n]
  else if n < 0x800 then [0xC0 + n / 64, 0x80 + n % 64]
  else if n < 0x10000 then
    [0xE0 + n / 4096, 0x80 + n / 64 % 64, 0x80 + n % 64]
  else
    [0xF0 + n / 262144, 0x80 + n / 4096 % 64, 0x80 + n / 64 % 64,
     0x80 + n % 64]

/-- UTF-8 encoding of a string. -/
def utf8Encode (s : List Char) : List Nat :=
  s.flatMap utf8EncodeChar

/-! ## `parseNDJSONStream` over raw byte chunks -/

/-- The chunk loop of `parseNDJSONStream` as written in the source: each
raw byte chunk is decoded by the stateful TextDecoder (`decodeSM` with the
carried state), appended to the line buffer, and complete lines are
emitted.  At end of stream the residual text buffer gets one last tolerant
parse (bytes still held by the decoder are dropped: the source never
flushes the decoder). -/
def processByteChunks {R : Type} (parse : List Char → Option R) :
    List Nat → List Char → List (List Nat) → List R
  | _pend, buffer, [] => emitLine parse buffer
  | pend, buffer, bc :: rest =>
    let d := decodeSM pend bc
    let r := splitNL (buffer ++ d.1)
    r.1.flatMap (emitLine parse) ++ processByteChunks parse d.2 r.2 rest

/-- `parseNDJSONStream` consuming a stream of raw byte chunks. -/
def parseNDJSONByteStream {R : Type} (parse : List Char → Option R)
    (chunks : List (List Nat)) : List R :=
  processByteChunks parse [] [] chunks

/-- NDJSON text: lines joined by the newline character. -/
def joinLines (lines : List (List Char)) : List Char :=
  List.intercalate ['\n'] lines

/-- A concrete sample record parser (digit strings to numbers), used to
exercise the decoder on closed inputs. -/
def parseDigits (l : List Char) : Option Nat :=
  if l ≠ [] ∧ l.all Char.isDigit then
    some (l.foldl (fun acc c => acc * 10 + (c.toNat - 48)) 0)
  else none

/-! ## Signed-target resolver (`extractCustomParams`, `parseSignedUrl`,
src/utils.ts lines 69-90 and 221-233)

The WHATWG `URL` platform API is abstracted: a parsed URL is an opaque
non-query part plus an ordered list of query key/value pairs, and the
`new URL(...)` parser and `toString()` serializer are parameters of the
embedded functions. -/

/-- A parsed URL object: everything but the query is opaque. -/
structure UrlObj where
  base : String
  query : List (String × String)
deriving DecidableEq

/-- `u.searchParams.get(p)`: the first value bound to `p`, or null. -/
def searchParamsGet (u : UrlObj) (p : String) : Option String :=
  (u.query.find? (fun kv => kv.1 == p)).map (fun kv => kv.2)

/-- `u.searchParams.delete(p)`: remove every pair with key `p`. -/
def searchParamsDelete (u : UrlObj) (p : String) : UrlObj :=
  { u with query := u.query.filter (fun kv => !(kv.1 == p)) }

/-- The loop of `extractCustomParams` over the requested parameter names:
read the first value (`get(param) || undefined` coerces the empty string
to undefined), then delete the parameter from the URL object. -/
def extractCustomParamsGo (u : UrlObj) :
    List String → List (String × Option String) × UrlObj
  | [] => ([], u)
  | p :: ps =>
    let v := match searchParamsGet u p with
      | some s => if s = "" then none else some s
      | none => none
    let r := extractCustomParamsGo (searchParamsDelete u p) ps
    ((p, v) :: r.1, r.2)

/-- `extractCustomParams`: on a parseable URL, extract and strip the
requested parameters; on an unparseable input, report every requested
parameter absent and return the input unchanged. -/
def extractCustomParams (parseURL : String → Option UrlObj)
    (serialize : UrlObj → String) (url : String) (params : List String) :
    List (String × Option String) × String :=
  match parseURL url with
  | some u =>
    let r := extractCustomParamsGo u params
    (r.1, serialize r.2)
  | none => (params.map (fun p => (p, none)), url)

/-- Result record of `parseSignedUrl`. -/
structure ParsedSignedUrl where
  token : String
  object_id : String
  cleanedUrl : String
deriving DecidableEq

/-- Value lookup in the extracted-parameter dictionary. -/
def lookupParam (vals : List (String × Option String)) (p : String) :
    Option String :=
  match vals.find? (fun kv => kv.1 == p) with
  | some kv => kv.2
  | none => none

/-- `parseSignedUrl`: extract the two reserved parameters and throw
`Malformed signed url` when either is missing. -/
def parseSignedUrl (parseURL : String → Option UrlObj)
    (serialize : UrlObj → String) (signedUrl : String) :
    Except String ParsedSignedUrl :=
  let r := extractCustomParams parseURL serialize signedUrl
    ["X-Zapdos-Obj-Id", "X-Zapdos-Token"]
  let token := lookupParam r.1 "X-Zapdos-Token"
  let object_id := lookupParam r.1 "X-Zapdos-Obj-Id"
  match object_id, token with
  | some oid, some tok => Except.ok ⟨tok, oid, r.2⟩
  | _, _ => Except.error "Malformed signed url"

/-- Sample URL-parser oracle for closed inputs: parses the fixed address
"sample" to a given URL object. -/
def sampleParseURL (u : UrlObj) : String → Option UrlObj := fun s =>
  if s = "sample" then some u else none

/-- Sample serializer for closed inputs: shows the query as a list. -/
def sampleSerialize (u : UrlObj) : String :=
  u.base ++ String.intercalate "&" (u.query.map (fun kv => kv.1 ++ "=" ++ kv.2))

/-- The value `extractCustomParams` records for one parameter of a parsed
URL: the first query value with the empty string coerced to undefined. -/
def extractedValue (u : UrlObj) (p : String) : Option String :=
  match searchParamsGet u p with
  | some s => if s = "" then none else some s
  | none => none

/-! ## Callback context injector (`unextendCallbacks`, src/types.ts
lines 177-203)

The callback tree is modelled syntactically: leaves are handlers (wrapped
or not), nested objects recurse, and other values are primitives.
Handlers are data; invoking one with an argument object replays the JS
call, so the transforms themselves visibly perform no invocation. -/

/-- A JSON-ish primitive value inside argument objects. -/
inductive Val where
  | str (s : String)
  | num (n : Nat)
  | boolVal (b : Bool)
deriving DecidableEq

/-- A JS argument object: ordered key/value bindings, first binding wins
on lookup. -/
abbrev Arg := List (String × Val)

/-- Property read `a[k]`. -/
def lookupArg (a : Arg) (k : String) : Option Val :=
  (a.find? (fun kv => kv.1 == k)).map (fun kv => kv.2)

/-- The JS object spread `\x7b...a, ...ext\x7d`: `ext`'s bindings win,
modelled by prepending them under first-binding-wins lookup. -/
def mergeArgs (a ext : Arg) : Arg := ext ++ a

/-- A leaf handler: either an original caller handler (identified by a
number) or a wrapper that merges a fixed extension object into its
argument before forwarding, as built by `unextendCallbacks`. -/
inductive Handler where
  | base (i : Nat)
  | wrapMerge (ext : Arg) (h : Handler)
deriving DecidableEq

/-- Invoking a handler with an argument object: returns which original
handler ends up called and with which argument. -/
def invoke : Handler → Arg → Nat × Arg
  | .base i, a => (i, a)
  | .wrapMerge ext h, a => invoke h (mergeArgs a ext)

mutual
/-- A callback-tree value: a function leaf, a nested object, or a
primitive. -/
inductive CbVal where
  | fn (h : Handler)
  | obj (entries : CbEntries)
  | prim (v : Val)
/-- Ordered fields of a callback-tree object. -/
inductive CbEntries where
  | nil
  | cons (key : String) (val : CbVal) (rest : CbEntries)
end

mutual
/-- `unextendCallbacks` body (src/types.ts 185-200): wrap every function
leaf so an invocation with `arg` forwards
`\x7b...arg, ...ext\x7d` to the original, recurse into nested objects, copy
primitives. -/
def unextendCallbacksVal (ext : Arg) : CbVal → CbVal
  | .fn h => .fn (.wrapMerge ext h)
  | .obj es => .obj (unextendCallbacksEntries ext es)
  | .prim v => .prim v
/-- The `for (const key in callbacks)` loop of `unextendCallbacks`. -/
def unextendCallbacksEntries (ext : Arg) : CbEntries → CbEntries
  | .nil => .nil
  | .cons k v rest =>
    .cons k (unextendCallbacksVal ext v) (unextendCallbacksEntries ext rest)
end

/-- `unextendCallbacks` with its null guard (`if (!callbacks) return
undefined`). -/
def unextendCallbacks (callbacks : Option CbVal) (ext : Arg) : Option CbVal :=
  match callbacks with
  | none => none
  | some t => some (unextendCallbacksVal ext t)

mutual
/-- Modelled from the spec: the Extend transform of §4.3 — the repository
declares only the `ExtendArgs` type, no runtime extend function.  "Wrap
every leaf handler so that when invoked with argument object A, the
wrapped handler is actually called with A merged with a fixed extension
object", recursing into nested sub-trees. -/
def extendCallbacksVal (ext : Arg) : CbVal → CbVal
  | .fn h => .fn (.wrapMerge ext h)
  | .obj es => .obj (extendCallbacksEntries ext es)
  | .prim v => .prim v
/-- Modelled from the spec: the Extend transform on an object's fields. -/
def extendCallbacksEntries (ext : Arg) : CbEntries → CbEntries
  | .nil => .nil
  | .cons k v rest =>
    .cons k (extendCallbacksVal ext v) (extendCallbacksEntries ext rest)
end

/-- Field read on a callback object. -/
def findEntry : CbEntries → String → Option CbVal
  | .nil, _ => none
  | .cons k v rest, q => if k == q then some v else findEntry rest q

/-- The leaf handler at a path of keys into the callback tree. -/
def findLeaf : List String → CbVal → Option Handler
  | [], .fn h => some h
  | k :: p, .obj es =>
    match findEntry es k with
    | some v => findLeaf p v
    | none => none
  | _, _ => none

/-- Two argument objects are observably equal when every property reads
the same. -/
def ArgEquiv (a b : Arg) : Prop := ∀ k, lookupArg a k = lookupArg b k

/-- Two calls are the same call when they reach the same handler with
observably equal argument objects. -/
def CallEq (c₁ c₂ : Nat × Arg) : Prop := c₁.1 = c₂.1 ∧ ArgEquiv c₁.2 c₂.2

/-- Decidable check that `A` already carries every binding of `ext`. -/
def extSubB (ext A : Arg) : Bool :=
  ext.all (fun kv => lookupArg A kv.1 == lookupArg ext kv.1)

/-! ## Batch upload coordinator (`axiosUpload`, `prepareMinimalCallbacks`,
`batchUpload`, `updateObjectMetadata`, `handleStream`, src/utils.ts lines
93-295, and `ZapdosBaseClient.uploadWithSignedUrls`, src/base-client.ts
lines 162-190)

Per file, the network world is an environment: the transport outcome of
the `axiosUpload` PUT, and the metadata-commit response body as an
optional list of decoded NDJSON records (`none` = no readable body).
A promise is modelled by the ordered list of `resolve` calls the code
makes for it: it settles with the first, and an empty list means it never
settles.  `resolve` is called only inside the `onCompleted`/`onFailed`
wrappers that `prepareMinimalCallbacks` builds, and those wrappers exist
only when a callback tree was supplied, so the model carries a `cbs`
flag.  Progress events are driven by the transport internals and are not
modelled. -/

/-- Outcome of the transport phase (`axiosUpload`): the response, or the
caught error's message. -/
inductive TransportResult where
  | success
  | failure (message : String)
deriving DecidableEq

/-- A decoded job-status record (`UpdateMetadataReturnedJSON`,
src/types.ts lines 120-126). -/
inductive NDRec where
  | metadataUpdated (object_id : String)
  | indexingStarted (object_id : String) (job_id : String)
  | indexingCompleted (object_id : String) (job_id : String)
  | indexingFailed (object_id : String) (job_id : String)
  | transcription (object_id : String) (job_id : String)
  | errorRec (message : String)
deriving DecidableEq

/-- One file's network world. -/
structure FileEnv where
  transport : TransportResult
  commitStream : Option (List NDRec)
deriving DecidableEq

/-- The per-file `Result` union of src/utils.ts lines 160-170, with the
payloads the wrappers attach. -/
inductive UploadOutcome where
  | data (object_id : String) (file_index : Nat)
  | error (message : String) (file_index : Nat)
deriving DecidableEq

/-- The `file_index` carried by either arm. -/
def UploadOutcome.fileIndex : UploadOutcome → Nat
  | .data _ i => i
  | .error _ i => i

/-- Whether the outcome is the `error` arm. -/
def UploadOutcome.isError : UploadOutcome → Bool
  | .data _ _ => false
  | .error _ _ => true

/-- An invocation of a caller-supplied callback, with the `file_index`
the wrappers attach. -/
inductive CbEvent where
  | stored (file_index : Nat)
  | failed (message : String) (file_index : Nat)
  | completed (object_id : String) (file_index : Nat)
  | jobIndexingStarted (object_id : String) (job_id : String) (file_index : Nat)
  | jobIndexingCompleted (object_id : String) (job_id : String) (file_index : Nat)
  | jobIndexingFailed (object_id : String) (job_id : String) (file_index : Nat)
  | jobTranscription (object_id : String) (job_id : String) (file_index : Nat)
deriving DecidableEq

/-- `handleStream`'s dispatch of one record (src/utils.ts lines 263-294):
a record carrying `error` is logged and skipped; `metadata_updated`
reaches `onCompleted`; the three indexing types reach the matching job
callback; no branch exists for `transcription`, so such a record produces
no invocation. -/
def dispatchRecord (fileIndex : Nat) : NDRec → List CbEvent
  | .errorRec _ => []
  | .metadataUpdated oid => [.completed oid fileIndex]
  | .indexingStarted oid jid => [.jobIndexingStarted oid jid fileIndex]
  | .indexingFailed oid jid => [.jobIndexingFailed oid jid fileIndex]
  | .indexingCompleted oid jid => [.jobIndexingCompleted oid jid fileIndex]
  | .transcription _ _ => []

/-- `handleStream` over a fully decoded record stream. -/
def handleStream (fileIndex : Nat) (recs : List NDRec) : List CbEvent :=
  recs.flatMap (dispatchRecord fileIndex)

/-- The `resolve` calls issued while `handleStream` drains the stream:
each `metadata_updated` record fires the `onCompleted` wrapper of
`prepareMinimalCallbacks`, which resolves the file's promise with the
`data` arm. -/
def streamResolveCalls (fileIndex : Nat) (recs : List NDRec) :
    List UploadOutcome :=
  recs.filterMap (fun r =>
    match r with
    | .metadataUpdated oid => some (.data oid fileIndex)
    | _ => none)

/-- All `resolve` calls for one file's promise, in program order: when a
callback tree was supplied, a transport failure fires the `onFailed`
wrapper first (`error` arm), and the commit stream's `metadata_updated`
records fire the `onCompleted` wrapper (`data` arm); with no callback
tree, no wrapper exists and `resolve` is never called. -/
def fileResolveCalls (cbs : Bool) (fileIndex : Nat) (env : FileEnv) :
    List UploadOutcome :=
  if cbs then
    (match env.transport with
      | .success => []
      | .failure m => [.error m fileIndex]) ++
    (match env.commitStream with
      | none => []
      | some recs => streamResolveCalls fileIndex recs)
  else []

/-- The settled value of one file's promise: the first `resolve` call, or
`none` when the promise never settles. -/
def fileOutcome (cbs : Bool) (fileIndex : Nat) (env : FileEnv) :
    Option UploadOutcome :=
  (fileResolveCalls cbs fileIndex env).head?

/-- The caller-visible callback invocations of one file's pipeline, in
program order: `onStored` or `onFailed` from the transport phase, then
the stream dispatches; nothing when no callback tree was supplied. -/
def fileEvents (cbs : Bool) (fileIndex : Nat) (env : FileEnv) : List CbEvent :=
  if cbs then
    (match env.transport with
      | .success => [.stored fileIndex]
      | .failure m => [.failed m fileIndex]) ++
    (match env.commitStream with
      | none => []
      | some recs => handleStream fileIndex recs)
  else []

/-- Job-status callbacks: the `job` sub-tree plus `onTranscription`. -/
def isJobEvent : CbEvent → Bool
  | .jobIndexingStarted .. => true
  | .jobIndexingCompleted .. => true
  | .jobIndexingFailed .. => true
  | .jobTranscription .. => true
  | _ => false

/-- `AxiosUploadItem` (src/types.ts lines 213-226), the fields the
coordinator logic reads. -/
structure AxiosUploadItem where
  index : Nat
  token : String
  object_id : String
deriving DecidableEq

/-- The comparator of `batchUpload`'s final `toSorted`:
`(a?.data || a.error).file_index - (b?.data || b.error).file_index`. -/
def outcomeLE (a b : UploadOutcome) : Prop :=
  a.fileIndex ≤ b.fileIndex

instance : DecidableRel outcomeLE := fun a b => Nat.decLe a.fileIndex b.fileIndex

instance : IsTotal UploadOutcome outcomeLE :=
  ⟨fun a b => Nat.le_total a.fileIndex b.fileIndex⟩

instance : IsTrans UploadOutcome outcomeLE :=
  ⟨fun _ _ _ h1 h2 => Nat.le_trans h1 h2⟩

/-- `results.toSorted(...)`: a stable sort by `file_index`. -/
def sortOutcomes (l : List UploadOutcome) : List UploadOutcome :=
  List.insertionSort outcomeLE l

/-- `batchUpload` (src/utils.ts lines 175-219): one promise per item,
`Promise.all`, then sort by `file_index`.  `Promise.all` settles, in
submission order, only when every per-file promise settles; otherwise the
batch promise is pending forever (`none`). -/
def batchUpload (cbs : Bool) (items : List AxiosUploadItem)
    (envs : List FileEnv) : Option (List UploadOutcome) :=
  let per := (items.zip envs).map (fun ie => fileOutcome cbs ie.1.index ie.2)
  if per.all Option.isSome then some (sortOutcomes per.reduceOption) else none

/-- `ZapdosBaseClient.uploadWithSignedUrls` (src/base-client.ts lines
162-190): parse every signed URL (`parseSignedUrl` throws on a malformed
one, rejecting the call), build items whose `index` is the positional
index, and run `batchUpload`. -/
def uploadWithSignedUrls (P : String → Option UrlObj) (S : UrlObj → String)
    (urls : List String) (cbs : Bool) (envs : List FileEnv) :
    Except String (Option (List UploadOutcome)) :=
  (urls.mapM (parseSignedUrl P S)).map (fun parsed =>
    batchUpload cbs
      (parsed.enum.map (fun ip => ⟨ip.1, ip.2.token, ip.2.object_id⟩)) envs)

/-- The per-file settled values of a batch, in submission order. -/
def perOutcomes (ps : List (AxiosUploadItem × FileEnv)) :
    List (Option UploadOutcome) :=
  ps.map (fun ie => fileOutcome true ie.1.index ie.2)

/-- The settled outcomes of a batch in submission order, once every file
has settled. -/
def resOutcomes (ps : List (AxiosUploadItem × FileEnv)) : List UploadOutcome :=
  (perOutcomes ps).reduceOption

/-- Strict comparison of outcomes by `file_index`. -/
def outcomeLT (a b : UploadOutcome) : Prop :=
  a.fileIndex < b.fileIndex

/-! ## Theorems about the NDJSON decoder -/

theorem splitNL_append (a b : List Char) :
    splitNL (a ++ b) =
      ((splitNL a).1 ++ mergeFirst (splitNL a).2 (splitNL b).1,
       if (splitNL b).1 = [] then (splitNL a).2 ++ (splitNL b).2
       else (splitNL b).2) := by
  induction a with
  | nil =>
    rcases hb : splitNL b with ⟨lb, fb⟩
    rcases lb with _ | ⟨l, ls⟩ <;> simp [splitNL, mergeFirst, hb]
  | cons c cs ih =>
    rcases hcs : splitNL cs with ⟨lcs, fcs⟩
    rcases hb : splitNL b with ⟨lb, fb⟩
    rw [hcs, hb] at ih
    by_cases hc : c = '\n'
    · rcases lb with _ | ⟨bl, bls⟩ <;>
        simp [splitNL, hc, ih, hcs, mergeFirst]
    · rcases lcs with _ | ⟨l, ls⟩
      · rcases lb with _ | ⟨bl, bls⟩ <;>
          simp [splitNL, hc, ih, hcs, mergeFirst]
      · rcases lb with _ | ⟨bl, bls⟩ <;>
          simp [splitNL, hc, ih, hcs, mergeFirst]

/-- The trailing fragment contains no newline, so re-splitting it yields
no complete line. -/
theorem splitNL_snd (s : List Char) :
    splitNL (splitNL s).2 = ([], (splitNL s).2) := by
  induction s with
  | nil => rfl
  | cons c cs ih =>
    rcases hcs : splitNL cs with ⟨lcs, fcs⟩
    rw [hcs] at ih
    by_cases hc : c = '\n'
    · simp [splitNL, hcs, hc, ih]
    · rcases lcs with _ | ⟨l, ls⟩
      · simp [splitNL, hcs, hc, ih]
      · simp [splitNL, hcs, hc, ih]

/-- Splitting one text chunk in two does not change the decoded records:
the buffer carries the partial line across the boundary. -/
theorem processChunks_splitChunk {R : Type} (parse : List Char → Option R)
    (buffer a b : List Char) (rest : List (List Char)) :
    processChunks parse buffer ((a ++ b) :: rest) =
      processChunks parse buffer (a :: b :: rest) := by
  show (splitNL (buffer ++ (a ++ b))).1.flatMap (emitLine parse) ++ _ = _
  have h1 : buffer ++ (a ++ b) = (buffer ++ a) ++ b := by
    simp [List.append_assoc]
  rw [h1, splitNL_append (buffer ++ a) b]
  show _ = (splitNL (buffer ++ a)).1.flatMap (emitLine parse) ++
    ((splitNL ((splitNL (buffer ++ a)).2 ++ b)).1.flatMap (emitLine parse) ++
      processChunks parse (splitNL ((splitNL (buffer ++ a)).2 ++ b)).2 rest)
  rw [splitNL_append (splitNL (buffer ++ a)).2 b,
    splitNL_snd (buffer ++ a)]
  simp [List.flatMap_append]

theorem decodeSM_collect {pend : List Nat} {b : Nat}
    (h : (pend ++ [b]).length < utf8Len ((pend ++ [b]).headD 0))
    (rest : List Nat) :
    decodeSM pend (b :: rest) = decodeSM (pend ++ [b]) rest := by
  rw [decodeSM, if_pos h]

theorem decodeSM_emit {pend : List Nat} {b : Nat}
    (h : ¬ (pend ++ [b]).length < utf8Len ((pend ++ [b]).headD 0))
    (rest : List Nat) :
    decodeSM pend (b :: rest) =
      (decodeBytes (pend ++ [b]) :: (decodeSM [] rest).1, (decodeSM [] rest).2) := by
  rw [decodeSM, if_neg h]

/-- Decoding is compositional across arbitrary chunk boundaries: feeding
two byte chunks through the decoder while carrying its state between them
produces the same characters and the same final state as feeding their
concatenation. -/
theorem decodeSM_append (a : List Nat) :
    ∀ pend b, decodeSM pend (a ++ b) =
      ((decodeSM pend a).1 ++ (decodeSM (decodeSM pend a).2 b).1,
       (decodeSM (decodeSM pend a).2 b).2) := by
  induction a with
  | nil => intro pend b; simp [decodeSM]
  | cons x a' ih =>
    intro pend b
    rw [List.cons_append]
    by_cases h : (pend ++ [x]).length < utf8Len ((pend ++ [x]).headD 0)
    · rw [decodeSM_collect h, decodeSM_collect h, ih]
    · rw [decodeSM_emit h, decodeSM_emit h, ih []]
      simp

theorem utf8Len_eq_one {b : Nat} (h : b < 128) : utf8Len b = 1 := by
  unfold utf8Len
  split_ifs <;> omega

theorem utf8Len_eq_two {b : Nat} (h1 : 192 ≤ b) (h2 : b < 224) :
    utf8Len b = 2 := by
  unfold utf8Len
  split_ifs <;> omega

theorem utf8Len_eq_three {b : Nat} (h1 : 224 ≤ b) (h2 : b < 240) :
    utf8Len b = 3 := by
  unfold utf8Len
  split_ifs <;> omega

theorem utf8Len_eq_four {b : Nat} (h : 240 ≤ b) : utf8Len b = 4 := by
  unfold utf8Len
  split_ifs <;> omega

theorem utf8EncodeChar_cases (c : Char) :
    (c.toNat < 0x80 ∧ utf8EncodeChar c = [c.toNat]) ∨
    (0x80 ≤ c.toNat ∧ c.toNat < 0x800 ∧
      utf8EncodeChar c = [0xC0 + c.toNat / 64, 0x80 + c.toNat % 64]) ∨
    (0x800 ≤ c.toNat ∧ c.toNat < 0x10000 ∧
      utf8EncodeChar c =
        [0xE0 + c.toNat / 4096, 0x80 + c.toNat / 64 % 64, 0x80 + c.toNat % 64]) ∨
    (0x10000 ≤ c.toNat ∧ c.toNat < 0x110000 ∧
      utf8EncodeChar c =
        [0xF0 + c.toNat / 262144, 0x80 + c.toNat / 4096 % 64,
         0x80 + c.toNat / 64 % 64, 0x80 + c.toNat % 64]) := by
  have hv := c.valid
  simp only [UInt32.isValidChar, Nat.isValidChar] at hv
  have hlt : c.toNat < 0x110000 := by
    show c.val.toNat < 0x110000
    omega
  by_cases h1 : c.toNat < 0x80
  · exact Or.inl ⟨h1, by simp [utf8EncodeChar, h1]⟩
  · by_cases h2 : c.toNat < 0x800
    · exact Or.inr (Or.inl ⟨by omega, h2, by simp [utf8EncodeChar, h1, h2]⟩)
    · by_cases h3 : c.toNat < 0x10000
      · exact Or.inr (Or.inr (Or.inl ⟨by omega, h3, by simp [utf8EncodeChar, h1, h2, h3]⟩))
      · exact Or.inr (Or.inr (Or.inr ⟨by omega, hlt, by simp [utf8EncodeChar, h1, h2, h3]⟩))

/-- Decoding a buffer that starts with one fully present encoded character
yields that character followed by the decoding of the remaining bytes. -/
theorem decodeSM_encChar (c : Char) (B : List Nat) :
    decodeSM [] (utf8EncodeChar c ++ B) =
      (c :: (decodeSM [] B).1, (decodeSM [] B).2) := by
  rcases utf8EncodeChar_cases c with ⟨h, henc⟩ | ⟨h0, h, henc⟩ | ⟨h0, h, henc⟩ | ⟨h0, h, henc⟩
  · rw [henc]
    show decodeSM [] (c.toNat :: B) = _
    rw [decodeSM_emit (by simp [utf8Len_eq_one h]) B]
    simp only [List.nil_append, decodeBytes, Char.ofNat_toNat]
  · rw [henc]
    have e2 : utf8Len (0xC0 + c.toNat / 64) = 2 :=
      utf8Len_eq_two (by omega) (by omega)
    show decodeSM [] ((0xC0 + c.toNat / 64) :: (0x80 + c.toNat % 64) :: B) = _
    rw [decodeSM_collect (by simp [e2]) _, decodeSM_emit (by simp [e2]) B]
    have hdec : decodeBytes ([] ++ [0xC0 + c.toNat / 64] ++ [0x80 + c.toNat % 64]) = c := by
      show decodeBytes [0xC0 + c.toNat / 64, 0x80 + c.toNat % 64] = c
      simp only [decodeBytes]
      have harg : (0xC0 + c.toNat / 64 - 0xC0) * 64 + (0x80 + c.toNat % 64 - 0x80)
          = c.toNat := by omega
      rw [harg, Char.ofNat_toNat]
    rw [hdec]
  · rw [henc]
    have e3 : utf8Len (0xE0 + c.toNat / 4096) = 3 :=
      utf8Len_eq_three (by omega) (by omega)
    show decodeSM []
      ((0xE0 + c.toNat / 4096) :: (0x80 + c.toNat / 64 % 64) :: (0x80 + c.toNat % 64) :: B) = _
    rw [decodeSM_collect (by simp [e3]) _, decodeSM_collect (by simp [e3]) _,
      decodeSM_emit (by simp [e3]) B]
    have hdec : decodeBytes ([] ++ [0xE0 + c.toNat / 4096] ++ [0x80 + c.toNat / 64 % 64]
        ++ [0x80 + c.toNat % 64]) = c := by
      show decodeBytes [0xE0 + c.toNat / 4096, 0x80 + c.toNat / 64 % 64,
        0x80 + c.toNat % 64] = c
      simp only [decodeBytes]
      have harg : (0xE0 + c.toNat / 4096 - 0xE0) * 4096 +
          (0x80 + c.toNat / 64 % 64 - 0x80) * 64 + (0x80 + c.toNat % 64 - 0x80)
          = c.toNat := by omega
      rw [harg, Char.ofNat_toNat]
    rw [hdec]
  · rw [henc]
    have e4 : utf8Len (0xF0 + c.toNat / 262144) = 4 :=
      utf8Len_eq_four (by omega)
    show decodeSM []
      ((0xF0 + c.toNat / 262144) :: (0x80 + c.toNat / 4096 % 64) ::
        (0x80 + c.toNat / 64 % 64) :: (0x80 + c.toNat % 64) :: B) = _
    rw [decodeSM_collect (by simp [e4]) _, decodeSM_collect (by simp [e4]) _,
      decodeSM_collect (by simp [e4]) _, decodeSM_emit (by simp [e4]) B]
    have hdec : decodeBytes ([] ++ [0xF0 + c.toNat / 262144] ++ [0x80 + c.toNat / 4096 % 64]
        ++ [0x80 + c.toNat / 64 % 64] ++ [0x80 + c.toNat % 64]) = c := by
      show decodeBytes [0xF0 + c.toNat / 262144, 0x80 + c.toNat / 4096 % 64,
        0x80 + c.toNat / 64 % 64, 0x80 + c.toNat % 64] = c
      simp only [decodeBytes]
      have harg : (0xF0 + c.toNat / 262144 - 0xF0) * 262144 +
          (0x80 + c.toNat / 4096 % 64 - 0x80) * 4096 +
          (0x80 + c.toNat / 64 % 64 - 0x80) * 64 + (0x80 + c.toNat % 64 - 0x80)
          = c.toNat := by omega
      rw [harg, Char.ofNat_toNat]
    rw [hdec]

/-- A fully encoded string decodes completely, with empty carried state. -/
theorem decodeSM_encode (s : List Char) : decodeSM [] (utf8Encode s) = (s, []) := by
  induction s with
  | nil => rfl
  | cons c s' ih =>
    show decodeSM [] (utf8EncodeChar c ++ utf8Encode s') = _
    rw [decodeSM_encChar, ih]



/-- Consuming two byte chunks with the decoder state carried across the
boundary yields the same records as consuming their concatenation. -/
theorem parseNDJSONByteStream_two_chunks {R : Type} (parse : List Char → Option R)
    (a b : List Nat) :
    parseNDJSONByteStream parse [a, b] = parseNDJSONByteStream parse [a ++ b] := by
  have h1 : parseNDJSONByteStream parse [a, b] =
      processChunks parse [] [(decodeSM [] a).1, (decodeSM (decodeSM [] a).2 b).1] := rfl
  have h2 : parseNDJSONByteStream parse [a ++ b] =
      processChunks parse [] [(decodeSM [] (a ++ b)).1] := rfl
  rw [h1, h2, decodeSM_append a [] b, processChunks_splitChunk]

/-- A single fully-encoded byte chunk is decoded like its text form. -/
theorem parseNDJSONByteStream_encode {R : Type} (parse : List Char → Option R)
    (s : List Char) :
    parseNDJSONByteStream parse [utf8Encode s] = parseNDJSONStream parse [s] := by
  have h2 : parseNDJSONByteStream parse [utf8Encode s] =
      processChunks parse [] [(decodeSM [] (utf8Encode s)).1] := rfl
  rw [h2, decodeSM_encode]
  rfl

/-- C6.  NDJSON decoding is chunk-boundary invariant: for every text and
every byte offset into its UTF-8 encoding, decoding the bytes split at
that offset into two chunks yields the same record sequence as decoding
them as a single chunk (which in turn equals decoding the text itself). -/
theorem ndjson_chunk_boundary_invariant {R : Type} (parse : List Char → Option R)
    (s : List Char) (i : Nat) :
    parseNDJSONByteStream parse [(utf8Encode s).take i, (utf8Encode s).drop i] =
      parseNDJSONByteStream parse [utf8Encode s] ∧
    parseNDJSONByteStream parse [utf8Encode s] = parseNDJSONStream parse [s] := by
  constructor
  · rw [parseNDJSONByteStream_two_chunks, List.take_append_drop]
  · exact parseNDJSONByteStream_encode parse s

theorem splitNL_no_newline (l : List Char) (h : '\n' ∉ l) :
    splitNL l = ([], l) := by
  induction l with
  | nil => rfl
  | cons c cs ih =>
    have hc : ¬ c = '\n' := by
      intro hc
      exact h (hc ▸ List.mem_cons_self c cs)
    have ih2 := ih (fun hm => h (List.mem_cons_of_mem c hm))
    simp [splitNL, ih2, hc]

theorem splitNL_joinLines (l : List Char) (rest : List (List Char))
    (h : ∀ x ∈ l :: rest, '\n' ∉ x) :
    splitNL (joinLines (l :: rest)) =
      ((l :: rest).dropLast, (l :: rest).getLast (by simp)) := by
  induction rest generalizing l with
  | nil =>
    simp only [joinLines, List.intercalate, List.intersperse, List.flatten]
    have := splitNL_no_newline l (h l (List.mem_cons_self l []))
    simpa using this
  | cons r rs ih =>
    have hjoin : joinLines (l :: r :: rs) = l ++ '\n' :: joinLines (r :: rs) := by
      simp [joinLines, List.intercalate]
    rw [hjoin, splitNL_append]
    have hl : splitNL l = ([], l) := splitNL_no_newline l (h l (by simp))
    have hcons : splitNL ('\n' :: joinLines (r :: rs)) =
        ([] :: (splitNL (joinLines (r :: rs))).1, (splitNL (joinLines (r :: rs))).2) := by
      simp [splitNL]
    rw [hl, hcons, ih r (fun x hx => h x (by simp at hx ⊢; tauto))]
    simp [mergeFirst, List.getLast_cons]

/-- Processing one chunk of newline-joined lines emits each line through
the tolerant parse, the last one via the end-of-stream residual parse. -/
theorem parseNDJSONStream_joinLines {R : Type} (parse : List Char → Option R)
    (l : List Char) (rest : List (List Char))
    (h : ∀ x ∈ l :: rest, '\n' ∉ x) :
    parseNDJSONStream parse [joinLines (l :: rest)] =
      (l :: rest).flatMap (emitLine parse) := by
  show (splitNL ([] ++ joinLines (l :: rest))).1.flatMap (emitLine parse) ++
      emitLine parse (splitNL ([] ++ joinLines (l :: rest))).2 = _
  rw [List.nil_append, splitNL_joinLines l rest h]
  have hsplit : (l :: rest).dropLast.flatMap (emitLine parse) ++
      emitLine parse ((l :: rest).getLast (by simp)) =
      ((l :: rest).dropLast ++ [(l :: rest).getLast (by simp)]).flatMap (emitLine parse) := by
    simp [List.flatMap_append]
  rw [hsplit, List.dropLast_append_getLast]

theorem flatMap_emitLine_length {R : Type} (parse : List Char → Option R)
    (L : List (List Char))
    (h : ∀ x ∈ L, hasContent x = true ∧ (parse x).isSome) :
    (L.flatMap (emitLine parse)).length = L.length := by
  induction L with
  | nil => rfl
  | cons x xs ih =>
    obtain ⟨hx, hsome⟩ := h x (by simp)
    obtain ⟨v, hv⟩ := Option.isSome_iff_exists.mp hsome
    rw [List.flatMap_cons, List.length_append, ih (fun y hy => h y (by simp [hy]))]
    simp [emitLine, hx, hv]
    omega

/-- C7.  One malformed line among otherwise valid NDJSON lines is skipped
and every other line still yields its record, the final line through the
tolerant residual-buffer parse; the record count is the line count minus
one. -/
theorem ndjson_malformed_line_skipped {R : Type} (parse : List Char → Option R)
    (good₁ good₂ : List (List Char)) (bad : List Char)
    (hnl : ∀ x ∈ good₁ ++ bad :: good₂, '\n' ∉ x)
    (hgood : ∀ x ∈ good₁ ++ good₂, hasContent x = true ∧ (parse x).isSome)
    (hbad : parse bad = none) :
    (parseNDJSONStream parse [joinLines (good₁ ++ bad :: good₂)]).length
      = (good₁ ++ bad :: good₂).length - 1 := by
  obtain ⟨l, rest, hlr⟩ : ∃ l rest, good₁ ++ bad :: good₂ = l :: rest := by
    cases good₁ with
    | nil => exact ⟨bad, good₂, rfl⟩
    | cons g gs => exact ⟨g, gs ++ bad :: good₂, rfl⟩
  rw [hlr, parseNDJSONStream_joinLines parse l rest (hlr ▸ hnl), ← hlr]
  have hbademit : emitLine parse bad = [] := by
    unfold emitLine
    split_ifs with h
    · rw [hbad]; rfl
    · rfl
  rw [List.flatMap_append, List.flatMap_cons, hbademit, List.nil_append,
    List.length_append,
    flatMap_emitLine_length parse good₁ (fun y hy => hgood y (by simp [hy])),
    flatMap_emitLine_length parse good₂ (fun y hy => hgood y (by simp [hy]))]
  simp [List.length_append]

/-- C7 witness: three digit lines with one malformed line in between give
three records out of four lines. -/
theorem ndjson_malformed_line_skipped_witness :
    (parseNDJSONStream parseDigits
      [joinLines ([['1'], ['2']] ++ ['x'] :: [['3']])]).length
      = ([['1'], ['2']] ++ ['x'] :: [['3']]).length - 1 :=
  ndjson_malformed_line_skipped parseDigits [['1'], ['2']] [['3']] ['x']
    (by decide) (by decide) (by decide)



/-! ## Theorems about the signed-target resolver -/

theorem find?_cons_key {β : Type} (kv : String × β) (t : List (String × β))
    (q : String) :
    (kv :: t).find? (fun x => x.1 == q) =
      if kv.1 = q then some kv else t.find? (fun x => x.1 == q) := by
  by_cases h : kv.1 = q
  · simp [List.find?, h]
  · have hb : (kv.1 == q) = false := by
      simp [h]
    simp [List.find?, h, hb]

theorem find?_filter_ne (l : List (String × String)) (p q : String)
    (h : p ≠ q) :
    (l.filter (fun kv => !(kv.1 == p))).find? (fun kv => kv.1 == q) =
      l.find? (fun kv => kv.1 == q) := by
  induction l with
  | nil => rfl
  | cons kv t ih =>
    by_cases hp : kv.1 = p
    · have hq2 : ¬ kv.1 = q := fun hc => h (hp.symm.trans hc)
      rw [List.filter_cons, if_neg (by simp [hp]), ih,
        find?_cons_key kv t q, if_neg hq2]
    · rw [List.filter_cons, if_pos (by simp [hp]), find?_cons_key, find?_cons_key,
        ih]

theorem searchParamsGet_delete_ne (u : UrlObj) (p q : String) (h : p ≠ q) :
    searchParamsGet (searchParamsDelete u p) q = searchParamsGet u q := by
  unfold searchParamsGet searchParamsDelete
  rw [find?_filter_ne u.query p q h]

/-- Evaluation of the extraction loop on the two reserved parameters. -/
theorem extractCustomParams_reserved (P : String → Option UrlObj)
    (S : UrlObj → String) (url : String) (u : UrlObj) (hp : P url = some u) :
    extractCustomParams P S url ["X-Zapdos-Obj-Id", "X-Zapdos-Token"] =
      ([("X-Zapdos-Obj-Id", extractedValue u "X-Zapdos-Obj-Id"),
        ("X-Zapdos-Token", extractedValue u "X-Zapdos-Token")],
       S (searchParamsDelete (searchParamsDelete u "X-Zapdos-Obj-Id")
          "X-Zapdos-Token")) := by
  unfold extractCustomParams
  rw [hp]
  have hget : searchParamsGet (searchParamsDelete u "X-Zapdos-Obj-Id")
      "X-Zapdos-Token" = searchParamsGet u "X-Zapdos-Token" :=
    searchParamsGet_delete_ne u _ _ (by decide)
  simp [extractCustomParamsGo, extractedValue, hget]

/-- C8.  A parseable signed URL carrying both reserved parameters (with
non-empty values) resolves to their values plus the serialization of the
URL object with both parameters stripped, and the stripped query retains
no reserved key. -/
theorem signed_url_both_params_extracted (P : String → Option UrlObj)
    (S : UrlObj → String) (url : String) (u : UrlObj) (tv ov : String)
    (hp : P url = some u)
    (htv : searchParamsGet u "X-Zapdos-Token" = some tv) (htv0 : tv ≠ "")
    (hov : searchParamsGet u "X-Zapdos-Obj-Id" = some ov) (hov0 : ov ≠ "") :
    parseSignedUrl P S url = Except.ok
      ⟨tv, ov, S ⟨u.base, u.query.filter
        (fun kv => !(kv.1 == "X-Zapdos-Obj-Id") && !(kv.1 == "X-Zapdos-Token"))⟩⟩ ∧
    ∀ kv ∈ u.query.filter
        (fun kv => !(kv.1 == "X-Zapdos-Obj-Id") && !(kv.1 == "X-Zapdos-Token")),
      kv.1 ≠ "X-Zapdos-Obj-Id" ∧ kv.1 ≠ "X-Zapdos-Token" := by
  constructor
  · unfold parseSignedUrl
    rw [extractCustomParams_reserved P S url u hp]
    have hvo : extractedValue u "X-Zapdos-Obj-Id" = some ov := by
      simp [extractedValue, hov, hov0]
    have hvt : extractedValue u "X-Zapdos-Token" = some tv := by
      simp [extractedValue, htv, htv0]
    have hdd : searchParamsDelete (searchParamsDelete u "X-Zapdos-Obj-Id")
        "X-Zapdos-Token" = ⟨u.base, u.query.filter
          (fun kv => !(kv.1 == "X-Zapdos-Obj-Id") && !(kv.1 == "X-Zapdos-Token"))⟩ := by
      simp only [searchParamsDelete, List.filter_filter]
      have hfun : (fun (a : String × String) =>
          !(a.1 == "X-Zapdos-Token") && !(a.1 == "X-Zapdos-Obj-Id")) =
          (fun a => !(a.1 == "X-Zapdos-Obj-Id") && !(a.1 == "X-Zapdos-Token")) := by
        funext a
        rw [Bool.and_comm]
      rw [hfun]
    rw [hdd]
    simp [lookupParam, List.find?, hvo, hvt]
  · intro kv hkv
    have := List.of_mem_filter hkv
    constructor
    · intro hc
      simp [hc] at this
    · intro hc
      simp [hc] at this

/-- C8 witness: a URL object with both reserved parameters among others. -/
theorem signed_url_both_params_extracted_witness :
    parseSignedUrl
      (sampleParseURL ⟨"https://s/", [("a", "1"), ("X-Zapdos-Token", "tok"),
        ("X-Zapdos-Obj-Id", "obj"), ("b", "2")]⟩) sampleSerialize "sample" =
      Except.ok ⟨"tok", "obj", sampleSerialize
        ⟨"https://s/", [("a", "1"), ("b", "2")]⟩⟩ ∧
    ∀ kv ∈ ([("a", "1"), ("X-Zapdos-Token", "tok"), ("X-Zapdos-Obj-Id", "obj"),
        ("b", "2")] : List (String × String)).filter
        (fun kv => !(kv.1 == "X-Zapdos-Obj-Id") && !(kv.1 == "X-Zapdos-Token")),
      kv.1 ≠ "X-Zapdos-Obj-Id" ∧ kv.1 ≠ "X-Zapdos-Token" :=
  signed_url_both_params_extracted
    (sampleParseURL ⟨"https://s/", [("a", "1"), ("X-Zapdos-Token", "tok"),
      ("X-Zapdos-Obj-Id", "obj"), ("b", "2")]⟩) sampleSerialize "sample"
    ⟨"https://s/", [("a", "1"), ("X-Zapdos-Token", "tok"),
      ("X-Zapdos-Obj-Id", "obj"), ("b", "2")]⟩ "tok" "obj"
    rfl (by decide) (by decide) (by decide) (by decide)



/-- Shared: extraction reporting either reserved value absent makes
`parseSignedUrl` throw. -/
theorem parseSignedUrl_error_of_value_none (P : String → Option UrlObj)
    (S : UrlObj → String) (url : String) (u : UrlObj) (hp : P url = some u)
    (h : extractedValue u "X-Zapdos-Obj-Id" = none ∨
         extractedValue u "X-Zapdos-Token" = none) :
    parseSignedUrl P S url = Except.error "Malformed signed url" := by
  unfold parseSignedUrl
  rw [extractCustomParams_reserved P S url u hp]
  cases hv1 : extractedValue u "X-Zapdos-Obj-Id" <;>
    cases hv2 : extractedValue u "X-Zapdos-Token" <;>
    simp_all [lookupParam, List.find?]

/-- C9 counterexample: a parseable signed URL carrying the token but
missing the object id.  The resolver does not "report both values absent
without throwing": `parseSignedUrl` throws `Malformed signed url`, and the
extraction reports the present parameter's value, not absence. -/
theorem signed_url_missing_param_counterexample :
    parseSignedUrl (sampleParseURL ⟨"https://s/", [("X-Zapdos-Token", "t")]⟩)
        sampleSerialize "sample" = Except.error "Malformed signed url" ∧
    lookupParam (extractCustomParams
        (sampleParseURL ⟨"https://s/", [("X-Zapdos-Token", "t")]⟩)
        sampleSerialize "sample" ["X-Zapdos-Obj-Id", "X-Zapdos-Token"]).1
      "X-Zapdos-Token" = some "t" := by
  constructor
  · rfl
  · rfl

/-- C9 as amended.  On a parseable URL from which either reserved
parameter extracts as absent, `parseSignedUrl` fails with
`Malformed signed url` rather than reporting both values absent; the
non-throwing both-absent report happens only when the input is not a
parseable URL, in which case `extractCustomParams` reports every requested
parameter absent, returns the input unchanged, and `parseSignedUrl` then
throws. -/
theorem signed_url_missing_param_behavior (P : String → Option UrlObj)
    (S : UrlObj → String) (url : String) :
    (∀ u, P url = some u →
      extractedValue u "X-Zapdos-Obj-Id" = none ∨
        extractedValue u "X-Zapdos-Token" = none →
      parseSignedUrl P S url = Except.error "Malformed signed url") ∧
    (P url = none →
      extractCustomParams P S url ["X-Zapdos-Obj-Id", "X-Zapdos-Token"] =
        ([("X-Zapdos-Obj-Id", none), ("X-Zapdos-Token", none)], url) ∧
      parseSignedUrl P S url = Except.error "Malformed signed url") := by
  constructor
  · intro u hp hor
    exact parseSignedUrl_error_of_value_none P S url u hp hor
  · intro hp
    constructor
    · simp [extractCustomParams, hp]
    · unfold parseSignedUrl
      simp [extractCustomParams, hp, lookupParam, List.find?]

/-- C9 witness: the amended behaviour at a concrete URL with the token
present and the object id missing. -/
theorem signed_url_missing_param_behavior_witness :
    parseSignedUrl (sampleParseURL ⟨"https://s/", [("X-Zapdos-Token", "t")]⟩)
      sampleSerialize "sample" = Except.error "Malformed signed url" :=
  (signed_url_missing_param_behavior
      (sampleParseURL ⟨"https://s/", [("X-Zapdos-Token", "t")]⟩)
      sampleSerialize "sample").1
    ⟨"https://s/", [("X-Zapdos-Token", "t")]⟩ rfl (Or.inl (by decide))

/-- C10.  A reserved parameter present with an empty-string value is
coerced to undefined during extraction (`get(param) || undefined`), so
`parseSignedUrl` throws `Malformed signed url` exactly as if the parameter
were missing. -/
theorem signed_url_empty_param_as_missing (P : String → Option UrlObj)
    (S : UrlObj → String) (url : String) (u : UrlObj)
    (hp : P url = some u)
    (he : searchParamsGet u "X-Zapdos-Obj-Id" = some "" ∨
          searchParamsGet u "X-Zapdos-Token" = some "") :
    (searchParamsGet u "X-Zapdos-Obj-Id" = some "" →
        extractedValue u "X-Zapdos-Obj-Id" = none) ∧
    (searchParamsGet u "X-Zapdos-Token" = some "" →
        extractedValue u "X-Zapdos-Token" = none) ∧
    parseSignedUrl P S url = Except.error "Malformed signed url" := by
  refine ⟨fun h => by simp [extractedValue, h], fun h => by simp [extractedValue, h], ?_⟩
  apply parseSignedUrl_error_of_value_none P S url u hp
  rcases he with h | h
  · exact Or.inl (by simp [extractedValue, h])
  · exact Or.inr (by simp [extractedValue, h])

/-- C10 witness: both reserved parameters present in the query, the token
with an empty value; the resolver throws as if the token were missing. -/
theorem signed_url_empty_param_as_missing_witness :
    (searchParamsGet ⟨"https://s/", [("X-Zapdos-Obj-Id", "o"), ("X-Zapdos-Token", "")]⟩
        "X-Zapdos-Obj-Id" = some "" →
      extractedValue ⟨"https://s/", [("X-Zapdos-Obj-Id", "o"), ("X-Zapdos-Token", "")]⟩
        "X-Zapdos-Obj-Id" = none) ∧
    (searchParamsGet ⟨"https://s/", [("X-Zapdos-Obj-Id", "o"), ("X-Zapdos-Token", "")]⟩
        "X-Zapdos-Token" = some "" →
      extractedValue ⟨"https://s/", [("X-Zapdos-Obj-Id", "o"), ("X-Zapdos-Token", "")]⟩
        "X-Zapdos-Token" = none) ∧
    parseSignedUrl
      (sampleParseURL ⟨"https://s/", [("X-Zapdos-Obj-Id", "o"), ("X-Zapdos-Token", "")]⟩)
      sampleSerialize "sample" = Except.error "Malformed signed url" :=
  signed_url_empty_param_as_missing
    (sampleParseURL ⟨"https://s/", [("X-Zapdos-Obj-Id", "o"), ("X-Zapdos-Token", "")]⟩)
    sampleSerialize "sample"
    ⟨"https://s/", [("X-Zapdos-Obj-Id", "o"), ("X-Zapdos-Token", "")]⟩
    rfl (Or.inr (by decide))



/-! ## Theorems about the callback context injector -/

theorem lookupArg_cons (kv : String × Val) (t : Arg) (k : String) :
    lookupArg (kv :: t) k = if kv.1 = k then some kv.2 else lookupArg t k := by
  unfold lookupArg
  rw [find?_cons_key]
  by_cases h : kv.1 = k
  · simp [h]
  · simp [h]

theorem lookupArg_append (a b : Arg) (k : String) :
    lookupArg (a ++ b) k =
      match lookupArg a k with
      | some v => some v
      | none => lookupArg b k := by
  induction a with
  | nil => simp [lookupArg]
  | cons kv t ih =>
    rw [List.cons_append, lookupArg_cons, lookupArg_cons]
    by_cases h : kv.1 = k
    · simp [h]
    · simp [h, ih]

theorem lookupArg_merge (a ext : Arg) (k : String) :
    lookupArg (mergeArgs a ext) k =
      match lookupArg ext k with
      | some v => some v
      | none => lookupArg a k :=
  lookupArg_append ext a k

theorem mergeArgs_argEquiv {a b : Arg} (ext : Arg) (h : ArgEquiv a b) :
    ArgEquiv (mergeArgs a ext) (mergeArgs b ext) := by
  intro k
  rw [lookupArg_merge, lookupArg_merge, h k]

theorem invoke_congr (h : Handler) :
    ∀ a b, ArgEquiv a b → CallEq (invoke h a) (invoke h b) := by
  induction h with
  | base i => exact fun a b hab => ⟨rfl, hab⟩
  | wrapMerge ext h' ih =>
    exact fun a b hab => ih _ _ (mergeArgs_argEquiv ext hab)

theorem extSubB_sound (ext A : Arg) (h : extSubB ext A = true) :
    ∀ k v, lookupArg ext k = some v → lookupArg A k = some v := by
  intro k v hv
  obtain ⟨kv, hfind, hv2⟩ := Option.map_eq_some'.mp hv
  have hmem : kv ∈ ext := List.mem_of_find?_eq_some hfind
  have hpred := List.find?_some hfind
  have hk : kv.1 = k := by simpa using hpred
  have hall := List.all_eq_true.mp h kv hmem
  have heq : lookupArg A kv.1 = lookupArg ext kv.1 := by simpa using hall
  rw [hk] at heq
  rw [heq, hv]

theorem merge_roundtrip_equiv (ext A : Arg)
    (hsub : ∀ k v, lookupArg ext k = some v → lookupArg A k = some v) :
    ArgEquiv (mergeArgs (mergeArgs A ext) ext) A := by
  intro k
  rw [lookupArg_merge, lookupArg_merge]
  cases hvk : lookupArg ext k with
  | some v => simp [(hsub k v hvk).symm]
  | none => simp

theorem findEntry_unextend (ext : Arg) :
    (es : CbEntries) → (k : String) →
    findEntry (unextendCallbacksEntries ext es) k =
      (findEntry es k).map (unextendCallbacksVal ext)
  | .nil, _ => rfl
  | .cons k' v rest, k => by
    by_cases h : k' == k
    · simp [unextendCallbacksEntries, findEntry, h]
    · simp [unextendCallbacksEntries, findEntry, h,
        findEntry_unextend ext rest k]

theorem findLeaf_unextend (ext : Arg) (path : List String) :
    ∀ t, findLeaf path (unextendCallbacksVal ext t) =
      (findLeaf path t).map (Handler.wrapMerge ext) := by
  induction path with
  | nil => intro t; cases t <;> simp [unextendCallbacksVal, findLeaf]
  | cons k p ih =>
    intro t
    cases t with
    | fn h => simp [unextendCallbacksVal, findLeaf]
    | prim v => simp [unextendCallbacksVal, findLeaf]
    | obj es =>
      show (match findEntry (unextendCallbacksEntries ext es) k with
        | some v => findLeaf p v
        | none => none) =
        Option.map (Handler.wrapMerge ext)
          (match findEntry es k with
            | some v => findLeaf p v
            | none => none)
      rw [findEntry_unextend]
      cases findEntry es k with
      | none => rfl
      | some v =>
        show findLeaf p (unextendCallbacksVal ext v) = _
        rw [ih v]

theorem findEntry_extend (ext : Arg) :
    (es : CbEntries) → (k : String) →
    findEntry (extendCallbacksEntries ext es) k =
      (findEntry es k).map (extendCallbacksVal ext)
  | .nil, _ => rfl
  | .cons k' v rest, k => by
    by_cases h : k' == k
    · simp [extendCallbacksEntries, findEntry, h]
    · simp [extendCallbacksEntries, findEntry, h,
        findEntry_extend ext rest k]

theorem findLeaf_extend (ext : Arg) (path : List String) :
    ∀ t, findLeaf path (extendCallbacksVal ext t) =
      (findLeaf path t).map (Handler.wrapMerge ext) := by
  induction path with
  | nil => intro t; cases t <;> simp [extendCallbacksVal, findLeaf]
  | cons k p ih =>
    intro t
    cases t with
    | fn h => simp [extendCallbacksVal, findLeaf]
    | prim v => simp [extendCallbacksVal, findLeaf]
    | obj es =>
      show (match findEntry (extendCallbacksEntries ext es) k with
        | some v => findLeaf p v
        | none => none) =
        Option.map (Handler.wrapMerge ext)
          (match findEntry es k with
            | some v => findLeaf p v
            | none => none)
      rw [findEntry_extend]
      cases findEntry es k with
      | none => rfl
      | some v =>
        show findLeaf p (extendCallbacksVal ext v) = _
        rw [ih v]

/-- C5 counterexample.  Extend then Unextend with the same extension
object is not the identity on invocation arguments: on the one-handler
tree with extension `(file_index, 0)`, invoking the round-tripped handler
with the empty argument object calls the original handler with
`file_index` bound, while invoking the original directly passes the empty
object.  The two transforms still perform no invocation themselves: the
original handler sits intact under two wrappers. -/
theorem extend_unextend_not_identity :
    findLeaf [] (unextendCallbacksVal [("file_index", Val.num 0)]
        (extendCallbacksVal [("file_index", Val.num 0)] (CbVal.fn (Handler.base 0))))
      = some (Handler.wrapMerge [("file_index", Val.num 0)]
          (Handler.wrapMerge [("file_index", Val.num 0)] (Handler.base 0))) ∧
    ¬ CallEq
      (invoke (Handler.wrapMerge [("file_index", Val.num 0)]
          (Handler.wrapMerge [("file_index", Val.num 0)] (Handler.base 0))) [])
      (invoke (Handler.base 0) []) := by
  refine ⟨rfl, ?_⟩
  intro hc
  have hk := hc.2 "file_index"
  simp [invoke, mergeArgs, lookupArg, List.find?] at hk

/-- C5 as amended.  Extend then Unextend with the same extension object is
the identity on invocation arguments that already carry the extension's
bindings (arguments of shape `A & Ext`): for every callback tree, every
leaf handler and every such argument object, the round-tripped handler
makes the same call as invoking the original directly; on other arguments
the round trip merges the extension in.  Neither transform invokes a
handler during the transformation itself: the round-tripped leaf is the
original handler intact under two argument-merging wrappers. -/
theorem extend_unextend_roundtrip (t : CbVal) (ext A : Arg)
    (path : List String) (h : Handler)
    (hleaf : findLeaf path t = some h)
    (hsub : extSubB ext A = true) :
    findLeaf path (unextendCallbacksVal ext (extendCallbacksVal ext t))
      = some (Handler.wrapMerge ext (Handler.wrapMerge ext h)) ∧
    CallEq (invoke (Handler.wrapMerge ext (Handler.wrapMerge ext h)) A)
      (invoke h A) := by
  constructor
  · rw [findLeaf_unextend, findLeaf_extend, hleaf]
    rfl
  · show CallEq (invoke h (mergeArgs (mergeArgs A ext) ext)) (invoke h A)
    exact invoke_congr h _ _ (merge_roundtrip_equiv ext A (extSubB_sound ext A hsub))

/-- C5 witness: a one-field callback tree, the `file_index` extension, and
an argument object already carrying `file_index`. -/
theorem extend_unextend_roundtrip_witness :
    findLeaf ["onCompleted"]
      (unextendCallbacksVal [("file_index", Val.num 3)]
        (extendCallbacksVal [("file_index", Val.num 3)]
          (CbVal.obj (CbEntries.cons "onCompleted" (CbVal.fn (Handler.base 1))
            CbEntries.nil))))
      = some (Handler.wrapMerge [("file_index", Val.num 3)]
          (Handler.wrapMerge [("file_index", Val.num 3)] (Handler.base 1))) ∧
    CallEq
      (invoke (Handler.wrapMerge [("file_index", Val.num 3)]
          (Handler.wrapMerge [("file_index", Val.num 3)] (Handler.base 1)))
        [("object_id", Val.str "o"), ("file_index", Val.num 3)])
      (invoke (Handler.base 1)
        [("object_id", Val.str "o"), ("file_index", Val.num 3)]) :=
  extend_unextend_roundtrip
    (CbVal.obj (CbEntries.cons "onCompleted" (CbVal.fn (Handler.base 1))
      CbEntries.nil))
    [("file_index", Val.num 3)]
    [("object_id", Val.str "o"), ("file_index", Val.num 3)]
    ["onCompleted"] (Handler.base 1) (by decide) (by decide)



/-! ## Theorems about the batch upload coordinator -/

/-- C1 evaluation.  With no callback tree supplied — the parameter is
optional — the batch promise never settles even though transport and
metadata commit both succeed: `resolve` lives only inside the wrappers
`prepareMinimalCallbacks` builds, and they are never created, so the
per-file promise accumulates no `resolve` call and `Promise.all` stays
pending forever.  The claim that the batch call always resolves fails on
this input. -/
theorem batch_no_callbacks_never_resolves :
    batchUpload false [⟨0, "tok", "obj"⟩]
        [⟨TransportResult.success, some [NDRec.metadataUpdated "obj"]⟩] = none ∧
    fileResolveCalls false 0
        ⟨TransportResult.success, some [NDRec.metadataUpdated "obj"]⟩ = [] :=
  ⟨rfl, rfl⟩

/-- C3 counterexample.  A transport-successful file whose metadata-commit
response has no readable body: the relay is indeed a no-op (the only
caller-visible event is `onStored` from the transport phase), but the
file's outcome is not a `data` success — `onCompleted` never fires, the
promise never resolves, and the batch result never materializes at all. -/
theorem commit_no_body_counterexample :
    batchUpload true [⟨0, "tok", "obj"⟩] [⟨TransportResult.success, none⟩]
        = none ∧
    fileEvents true 0 ⟨TransportResult.success, none⟩ = [CbEvent.stored 0] :=
  ⟨rfl, rfl⟩

/-- C3 as amended.  A metadata-commit response with no readable body makes
the relay a no-op: zero job-status callbacks fire; but the file's outcome
does not come from the transport phase — with no stream, a transport
failure still resolves the `error` arm, while a transport success leaves
the file's promise unresolved (success outcomes are minted only by a
`metadata_updated` record during the metadata phase). -/
theorem commit_no_body_relay_noop (cbs : Bool) (idx : Nat)
    (tr : TransportResult) :
    (fileEvents cbs idx ⟨tr, none⟩).filter isJobEvent = [] ∧
    fileOutcome cbs idx ⟨tr, none⟩ =
      (match cbs, tr with
        | true, TransportResult.failure m => some (UploadOutcome.error m idx)
        | _, _ => none) := by
  cases cbs <;> cases tr <;>
    simp [fileEvents, fileOutcome, fileResolveCalls, isJobEvent]

/-- C4 evaluation.  `handleStream`'s dispatch table on one stream holding
every record type: the `error` record is skipped without ending
consumption, `metadata_updated` reaches `onCompleted`, the three indexing
records reach their job callbacks — but the `transcription` record
produces no invocation at all: `handleStream` has no case for it, even
though `JobCallbacks.onTranscription` is declared and documented. -/
theorem handleStream_dispatch_eval :
    handleStream 0 [NDRec.errorRec "boom", NDRec.metadataUpdated "o",
        NDRec.indexingStarted "o" "j", NDRec.indexingCompleted "o" "j",
        NDRec.indexingFailed "o" "j", NDRec.transcription "o" "j"] =
      [CbEvent.completed "o" 0, CbEvent.jobIndexingStarted "o" "j" 0,
       CbEvent.jobIndexingCompleted "o" "j" 0,
       CbEvent.jobIndexingFailed "o" "j" 0] :=
  rfl



theorem streamResolveCalls_mem (i : Nat) (recs : List NDRec)
    (o : UploadOutcome) (h : o ∈ streamResolveCalls i recs) :
    ∃ oid, o = UploadOutcome.data oid i := by
  unfold streamResolveCalls at h
  obtain ⟨r, _, hmatch⟩ := List.mem_filterMap.mp h
  cases r with
  | metadataUpdated oid =>
    simp at hmatch
    exact ⟨oid, hmatch.symm⟩
  | indexingStarted oid jid => simp at hmatch
  | indexingCompleted oid jid => simp at hmatch
  | indexingFailed oid jid => simp at hmatch
  | transcription oid jid => simp at hmatch
  | errorRec m => simp at hmatch

/-- A settled file outcome carries the file's index, and it is the
`error` arm exactly when the transport failed. -/
theorem fileOutcome_spec (i : Nat) (env : FileEnv) (o : UploadOutcome)
    (h : fileOutcome true i env = some o) :
    o.fileIndex = i ∧
      (o.isError = true ↔ ∃ m, env.transport = TransportResult.failure m) := by
  unfold fileOutcome fileResolveCalls at h
  cases htr : env.transport with
  | failure m =>
    rw [htr] at h
    simp [List.head?] at h
    subst h
    exact ⟨rfl, by simp [UploadOutcome.isError, UploadOutcome.fileIndex]⟩
  | success =>
    rw [htr] at h
    simp at h
    cases hcs : env.commitStream with
    | none =>
      rw [hcs] at h
      simp at h
    | some recs =>
      rw [hcs] at h
      simp only [Option.some.injEq] at h
      have h2 : (streamResolveCalls i recs).head? = some o := h
      cases hl : streamResolveCalls i recs with
      | nil => rw [hl] at h2; simp at h2
      | cons x xs =>
        rw [hl] at h2
        simp [List.head?] at h2
        obtain ⟨oid, hx⟩ := streamResolveCalls_mem i recs x
          (hl ▸ List.mem_cons_self x xs)
        rw [← h2, hx]
        refine ⟨rfl, ?_⟩
        simp [UploadOutcome.isError]

/-- Structure of the batch's per-file outcome lists when every file has
settled. -/
theorem batch_per_spec :
    ∀ ps : List (AxiosUploadItem × FileEnv),
    (∀ ie ∈ ps, (fileOutcome true ie.1.index ie.2).isSome = true) →
    (perOutcomes ps).all Option.isSome = true ∧
    (resOutcomes ps).length = ps.length ∧
    (resOutcomes ps).map UploadOutcome.fileIndex =
      ps.map (fun ie => ie.1.index) ∧
    ∀ (j : Nat) (o' : UploadOutcome) (pe : AxiosUploadItem × FileEnv),
      (resOutcomes ps)[j]? = some o' → ps[j]? = some pe →
      (o'.isError = true ↔ ∃ m, pe.2.transport = TransportResult.failure m) := by
  intro ps
  induction ps with
  | nil =>
    intro _
    refine ⟨rfl, rfl, rfl, ?_⟩
    intro j o' pe h1 _
    simp [resOutcomes, perOutcomes] at h1
  | cons p t ih =>
    intro h
    obtain ⟨o, ho⟩ := Option.isSome_iff_exists.mp (h p (List.mem_cons_self p t))
    obtain ⟨hfi, herr⟩ := fileOutcome_spec p.1.index p.2 o ho
    have hper : perOutcomes (p :: t) = some o :: perOutcomes t := by
      simp [perOutcomes, ho]
    have hres : resOutcomes (p :: t) = o :: resOutcomes t := by
      rw [resOutcomes, hper, List.reduceOption_cons_of_some]
      rfl
    obtain ⟨ha, hl, hm, hg⟩ := ih (fun ie hie => h ie (List.mem_cons_of_mem p hie))
    refine ⟨?_, ?_, ?_, ?_⟩
    · simp [hper, ha]
    · simp [hres, hl]
    · simp [hres, hm, hfi]
    · intro j o' pe h1 h2
      cases j with
      | zero =>
        rw [hres] at h1
        simp at h1 h2
        subst h1
        subst h2
        exact herr
      | succ j' =>
        rw [hres] at h1
        simp only [List.getElem?_cons_succ] at h1 h2
        exact hg j' o' pe h1 h2

/-- Sorted-by-`file_index` with distinct indices implies sorted
strictly. -/
theorem sorted_lt_of_sorted_le (l : List UploadOutcome)
    (hs : l.Sorted outcomeLE) (hnd : (l.map UploadOutcome.fileIndex).Nodup) :
    l.Sorted outcomeLT := by
  have hpair : l.Pairwise (fun a b => a.fileIndex ≠ b.fileIndex) :=
    List.pairwise_map.mp hnd
  exact (hs.and hpair).imp (fun hab => Nat.lt_of_le_of_ne hab.1 hab.2)

/-- Sorting by `file_index` is determined by the multiset of outcomes when
the indices are distinct: every permutation sorts to the same list.  This
is the arrival-order independence of the batch result. -/
theorem sortOutcomes_eq_of_perm (res : List UploadOutcome)
    (hnd : (res.map UploadOutcome.fileIndex).Nodup)
    (hsorted : res.Sorted outcomeLE) :
    ∀ l, l.Perm res → sortOutcomes l = res := by
  intro l hperm
  have hsl : (sortOutcomes l).Sorted outcomeLE :=
    List.sorted_insertionSort outcomeLE l
  have hpl : (sortOutcomes l).Perm res :=
    (List.perm_insertionSort outcomeLE l).trans hperm
  have hnd2 : ((sortOutcomes l).map UploadOutcome.fileIndex).Nodup :=
    ((hpl.map UploadOutcome.fileIndex).nodup_iff).mpr hnd
  have hs1 : (sortOutcomes l).Sorted outcomeLT := sorted_lt_of_sorted_le _ hsl hnd2
  have hs2 : res.Sorted outcomeLT := sorted_lt_of_sorted_le _ hsorted hnd
  haveI : IsAntisymm UploadOutcome outcomeLT :=
    ⟨fun _ _ h1 h2 => absurd h2 (Nat.lt_asymm h1)⟩
  exact List.eq_of_perm_of_sorted hpl hs1 hs2

theorem map_index_eq_range (items : List AxiosUploadItem)
    (hidx : ∀ i (h : i < items.length), (items.get ⟨i, h⟩).index = i) :
    items.map AxiosUploadItem.index = List.range items.length := by
  apply List.ext_get
  · simp
  · intro n h1 h2
    rw [List.get_map, List.get_range]
    exact hidx n (by simpa using h1)



/-- C2.  When a callback tree is supplied, the item indices are the
positional indices (as `uploadWithSignedUrls` assigns them) and every
file's pipeline settles, the batch resolves with exactly one outcome per
item, sorted ascending by `file_index` 0..N-1; an outcome is the `error`
arm exactly when that file's transport failed; and any permutation of the
outcomes — any completion order — sorts to the same list. -/
theorem batch_result_sorted_by_file_index (items : List AxiosUploadItem)
    (envs : List FileEnv)
    (hlen : envs.length = items.length)
    (hidx : ∀ i (h : i < items.length), (items.get ⟨i, h⟩).index = i)
    (hsettle : ∀ ie ∈ items.zip envs,
      (fileOutcome true ie.1.index ie.2).isSome = true) :
    ∃ l, batchUpload true items envs = some l ∧
      l.length = items.length ∧
      l.map UploadOutcome.fileIndex = List.range items.length ∧
      (∀ (j : Nat) (o : UploadOutcome) (e : FileEnv),
        l[j]? = some o → envs[j]? = some e →
        (o.isError = true ↔ ∃ m, e.transport = TransportResult.failure m)) ∧
      (∀ l', l'.Perm l → sortOutcomes l' = l) := by
  obtain ⟨ha, hl, hm, hg⟩ := batch_per_spec (items.zip envs) hsettle
  have hzlen : (items.zip envs).length = items.length := by
    rw [List.length_zip, hlen, Nat.min_self]
  have hmapfst : (items.zip envs).map (fun ie => ie.1.index)
      = items.map AxiosUploadItem.index := by
    have hcomp : (items.zip envs).map (fun ie => ie.1.index)
        = ((items.zip envs).map Prod.fst).map AxiosUploadItem.index := by
      rw [List.map_map]
      rfl
    rw [hcomp, List.map_fst_zip items envs (le_of_eq hlen.symm)]
  have hrange : (resOutcomes (items.zip envs)).map UploadOutcome.fileIndex
      = List.range items.length := by
    rw [hm, hmapfst, map_index_eq_range items hidx]
  have hnd : ((resOutcomes (items.zip envs)).map UploadOutcome.fileIndex).Nodup := by
    rw [hrange]
    exact List.nodup_range items.length
  have hsorted : (resOutcomes (items.zip envs)).Sorted outcomeLE := by
    have hpw := List.pairwise_le_range items.length
    rw [← hrange] at hpw
    have h2 := List.pairwise_map.mp hpw
    exact h2
  have hsort_eq := sortOutcomes_eq_of_perm (resOutcomes (items.zip envs)) hnd hsorted
  refine ⟨resOutcomes (items.zip envs), ?_, ?_, hrange, ?_, hsort_eq⟩
  · show (if (perOutcomes (items.zip envs)).all Option.isSome = true then
        some (sortOutcomes (resOutcomes (items.zip envs))) else none) = _
    rw [if_pos ha, hsort_eq _ (List.Perm.refl _)]
  · rw [hl, hzlen]
  · intro j o e hjo hje
    obtain ⟨hjl, _⟩ := List.getElem?_eq_some.mp hjo
    have hji : j < items.length := by
      rw [hl, hzlen] at hjl
      exact hjl
    have hpj : (items.zip envs)[j]? = some (items[j], e) := by
      rw [List.getElem?_zip_eq_some]
      exact ⟨List.getElem?_eq_getElem hji, hje⟩
    exact hg j o (items[j], e) hjo hpj

/-- C2 witness: two files, the second failing transport; the batch
resolves to outcomes sorted by index with the `error` arm exactly at the
failed file. -/
theorem batch_result_sorted_by_file_index_witness :
    ∃ l, batchUpload true [⟨0, "t0", "o0"⟩, ⟨1, "t1", "o1"⟩]
        [⟨TransportResult.success, some [NDRec.metadataUpdated "o0"]⟩,
         ⟨TransportResult.failure "boom", none⟩] = some l ∧
      l.length = 2 ∧
      l.map UploadOutcome.fileIndex = List.range 2 ∧
      (∀ (j : Nat) (o : UploadOutcome) (e : FileEnv),
        l[j]? = some o →
        ([⟨TransportResult.success, some [NDRec.metadataUpdated "o0"]⟩,
          ⟨TransportResult.failure "boom", none⟩] : List FileEnv)[j]? = some e →
        (o.isError = true ↔ ∃ m, e.transport = TransportResult.failure m)) ∧
      (∀ l', l'.Perm l → sortOutcomes l' = l) :=
  batch_result_sorted_by_file_index
    [⟨0, "t0", "o0"⟩, ⟨1, "t1", "o1"⟩]
    [⟨TransportResult.success, some [NDRec.metadataUpdated "o0"]⟩,
     ⟨TransportResult.failure "boom", none⟩]
    rfl (by decide) (by decide)

end Zapdos
